import Mathlib

/-!
Verification development for the RustFileFinder repository (`src/main.rs`).

The Rust source is shallowly embedded below:
* `glob_to_regex` — the glob-to-regex translator (`src/main.rs:169`).
* the regex engine of the external `regex` crate is not part of the
  repository; a model of its parser and matcher, restricted to the
  syntax fragment that `glob_to_regex` can emit, is defined here
  (`parseItems`, `rustIsMatch`).
* `search_file_content`, `find_files`, the sorting step of `main`, and
  `human_readable_size` are embedded further down.
-/

/-- Translation of `glob_to_regex`'s `match c { ... }` body
(`src/main.rs:174-204`): given the `in_brackets` state and the current
character, return the characters pushed onto `regex_pattern` and the new
`in_brackets` state.  The `if`-chain mirrors the `match` arms in source
order. -/
def globChar (in_brackets : Bool) (c : Char) : List Char × Bool :=
  if c = '*' then
    (if in_brackets then ['*'] else ['.', '*'], in_brackets)
  else if c = '?' then
    (if in_brackets then ['?'] else ['.'], in_brackets)
  else if c = '[' then
    (['['], true)
  else if c = ']' then
    ([']'], false)
  else if c = '.' ∨ c = '+' ∨ c = '(' ∨ c = ')' ∨ c = '|' ∨ c = '^' ∨
          c = '$' ∨ c = '@' ∨ c = '%' then
    (if in_brackets then [c] else ['\\', c], in_brackets)
  else
    ([c], in_brackets)

/-- The character-by-character loop of `glob_to_regex`
(`src/main.rs:173-205`), producing the body of `regex_pattern`. -/
def globBody : List Char → Bool → List Char
  | [], _ => []
  | c :: cs, b =>
    let (out, b') := globChar b c
    out ++ globBody cs b'

/-- `glob_to_regex` (`src/main.rs:169-208`): translate the user pattern
and wrap the result as `format!("^{}$", regex_pattern)`. -/
def glob_to_regex (pattern : String) : String :=
  ⟨'^' :: (globBody pattern.data false ++ ['$'])⟩

/-! ## Model of the `regex` crate (external dependency)

The `regex` crate is not part of this repository.  The following
definitions are modelled from the spec's description of the compiled
pattern ("anchored regular expression", standard glob-derived syntax:
literals, `.`, `.*`, character classes, `^`/`$` anchors) together with
the crate's documented semantics on that fragment.  Escapes of
alphanumeric characters (crate-specific classes such as `\d`) are
outside the model and rejected by the parser. -/

/-- One member of a character class: a single character or a range. -/
inductive ClsItem where
  | single (c : Char) : ClsItem
  | range (lo hi : Char) : ClsItem
deriving DecidableEq, Repr

/-- An atom of the regex fragment emitted by `glob_to_regex`. -/
inductive RAtom where
  | lit (c : Char) : RAtom
  | any : RAtom
  | cls (neg : Bool) (items : List ClsItem) : RAtom
  | startA : RAtom
  | endA : RAtom
deriving DecidableEq, Repr

/-- An atom together with an optional repetition operator. -/
inductive RItem where
  | once (a : RAtom) : RItem
  | star (a : RAtom) : RItem
  | plus (a : RAtom) : RItem
  | opt (a : RAtom) : RItem
deriving DecidableEq, Repr

/-- Does a character class (negation flag and item list) match a
character? -/
def clsMatch (neg : Bool) (items : List ClsItem) (x : Char) : Bool :=
  let inItems := items.any fun it =>
    match it with
    | .single c => x = c
    | .range lo hi => lo ≤ x ∧ x ≤ hi
  if neg then !inItems else inItems

/-- Class-body parser: read items until the closing `]`.  Returns the
items and the remaining input.  A reversed range or an escape of an
alphanumeric is rejected; reaching the end of input without `]` fails
(the crate reports an unclosed character class). -/
def parseClsItems : List Char → Option (List ClsItem × List Char)
  | [] => none
  | ']' :: rest => some ([], rest)
  | '\\' :: [] => none
  | '\\' :: c :: rest =>
    if c.isAlphanum then none
    else do
      let (items, r) ← parseClsItems rest
      pure (ClsItem.single c :: items, r)
  | c :: '-' :: ']' :: rest =>
    some ([ClsItem.single c, ClsItem.single '-'], rest)
  | c :: '-' :: d :: rest =>
    if c ≤ d then do
      let (items, r) ← parseClsItems rest
      pure (ClsItem.range c d :: items, r)
    else none
  | c :: rest => do
    let (items, r) ← parseClsItems rest
    pure (ClsItem.single c :: items, r)

/-- Parse the interior of a character class, directly after the `[`:
an optional leading `^` negates, and a `]` immediately after `[` (or
after `[^`) is a literal member. -/
def parseCls (cs : List Char) : Option ((Bool × List ClsItem) × List Char) :=
  let (neg, cs1) : Bool × List Char :=
    match cs with
    | '^' :: r => (true, r)
    | _ => (false, cs)
  match cs1 with
  | ']' :: r => do
    let (items, rest) ← parseClsItems r
    pure ((neg, ClsItem.single ']' :: items), rest)
  | _ => do
    let (items, rest) ← parseClsItems cs1
    pure ((neg, items), rest)

/-- Parse a single atom from the head of the input.  A bare repetition
operator with nothing to repeat is a compile error (`none`). -/
def parseAtom : List Char → Option (RAtom × List Char)
  | [] => none
  | '\\' :: [] => none
  | '\\' :: c :: rest => if c.isAlphanum then none else some (.lit c, rest)
  | '.' :: rest => some (.any, rest)
  | '^' :: rest => some (.startA, rest)
  | '$' :: rest => some (.endA, rest)
  | '*' :: _ => none
  | '+' :: _ => none
  | '?' :: _ => none
  | '(' :: _ => none
  | ')' :: _ => none
  | '[' :: rest => do
    let ((neg, items), r) ← parseCls rest
    pure (.cls neg items, r)
  | c :: rest => some (.lit c, rest)

/-- Fuelled sequence parser: parse atoms, each with an optional postfix
repetition operator.  The fuel is an upper bound on the number of atoms;
`parseItems` supplies the input length, which always suffices because
every atom consumes at least one character. -/
def parseItemsF : Nat → List Char → Option (List RItem)
  | _, [] => some []
  | 0, _ :: _ => none
  | fuel + 1, cs => do
    let (a, rest) ← parseAtom cs
    match rest with
    | '*' :: r2 => do pure (RItem.star a :: (← parseItemsF fuel r2))
    | '+' :: r2 => do pure (RItem.plus a :: (← parseItemsF fuel r2))
    | '?' :: r2 => do pure (RItem.opt a :: (← parseItemsF fuel r2))
    | r2 => do pure (RItem.once a :: (← parseItemsF fuel r2))

/-- Model of `Regex::new`'s parser on the emitted fragment: a regex is a
sequence of repetition-annotated atoms, or a compile error. -/
def parseItems (cs : List Char) : Option (List RItem) :=
  parseItemsF cs.length cs

/-- Model of `Regex::new` (`src/main.rs:73`): compile a pattern string,
`none` meaning the crate reports a compile error. -/
def compileRegex (s : String) : Option (List RItem) :=
  parseItems s.data

/-- End positions at which a single atom can match, starting at `pos` in
`s`.  `.` matches any character except a newline; anchors consume
nothing. -/
def atomEnds (a : RAtom) (s : List Char) (pos : Nat) : List Nat :=
  match a with
  | .lit c =>
    match s[pos]? with
    | some x => if x = c then [pos + 1] else []
    | none => []
  | .any =>
    match s[pos]? with
    | some x => if x = '\n' then [] else [pos + 1]
    | none => []
  | .cls neg items =>
    match s[pos]? with
    | some x => if clsMatch neg items x then [pos + 1] else []
    | none => []
  | .startA => if pos = 0 then [pos] else []
  | .endA => if pos = s.length then [pos] else []

/-- End positions for zero or more repetitions of a character-consuming
atom; the fuel bounds the number of iterations by the remaining input. -/
def starConsume (a : RAtom) (s : List Char) : Nat → Nat → List Nat
  | pos, 0 => [pos]
  | pos, fuel + 1 =>
    pos ::
      (match atomEnds a s pos with
       | [] => []
       | p :: _ => starConsume a s p fuel)

/-- End positions for `a*`: anchors are zero-width so the star matches
only by the empty iteration; consuming atoms iterate over the rest of
the input. -/
def starEnds (a : RAtom) (s : List Char) (pos : Nat) : List Nat :=
  match a with
  | .startA => [pos]
  | .endA => [pos]
  | _ => starConsume a s pos (s.length - pos)

/-- End positions for one repetition-annotated item. -/
def itemEnds (it : RItem) (s : List Char) (pos : Nat) : List Nat :=
  match it with
  | .once a => atomEnds a s pos
  | .star a => starEnds a s pos
  | .plus a => (atomEnds a s pos).flatMap fun p => starEnds a s p
  | .opt a => pos :: atomEnds a s pos

/-- End positions at which the item sequence can match starting at
`pos`. -/
def matchEnds : List RItem → List Char → Nat → List Nat
  | [], _, pos => [pos]
  | it :: rest, s, pos =>
    (itemEnds it s pos).flatMap fun p => matchEnds rest s p

/-- Model of `Regex::is_match`: the compiled sequence matches starting
at some position of the haystack. -/
def rustIsMatch (re : List RItem) (s : String) : Bool :=
  (List.range (s.data.length + 1)).any fun i =>
    !(matchEnds re s.data i).isEmpty

/-- Full-string match: the whole haystack is consumed from position 0.
Used to express that a successful `is_match` was only a partial match. -/
def wholeMatch (re : List RItem) (s : String) : Bool :=
  (matchEnds re s.data 0).contains s.data.length

example : glob_to_regex "abc" = "^abc$" := by decide
example : glob_to_regex "*.rs" = "^.*\\.rs$" := by decide
example : glob_to_regex "[[*" = "^[[*$" := by decide
example : glob_to_regex "a\\" = "^a\\$" := by decide
example : compileRegex (glob_to_regex "[") = none := by decide
example : (compileRegex (glob_to_regex "abc")).isSome = true := by decide
example : ∀ re ∈ compileRegex (glob_to_regex "abc"),
    rustIsMatch re "xabcx" = false ∧ rustIsMatch re "abc" = true := by decide
example : ∀ re ∈ compileRegex (glob_to_regex "a\\"),
    rustIsMatch re "a$x" = true ∧ wholeMatch re "a$x" = false := by decide
example : ∀ re ∈ compileRegex (glob_to_regex "*.rs"),
    rustIsMatch re "main.rs" = true ∧ rustIsMatch re "main.rsx" = false := by
  decide

/-! ## Filesystem model and the embedded program

The filesystem a run observes is modelled as a tree of entries.  Each
entry carries the data the traversal can observe about it:
* `name` — the entry's file name as seen through `to_string_lossy`;
* `utf8` — whether the entry's OS-level name is valid UTF-8
  (`path.to_str()` on a path through this entry succeeds only if every
  component is valid UTF-8);
* `meta` — the result of `fs::metadata` (`none` models an `Err`), whose
  `modified` field is itself optional (`metadata.modified()` can fail);
* for files, `content` — the result of opening the file and reading it
  line by line: `none` models a failed open, and each line is `none`
  when reading that line returned an `Err`;
* for directories, `dirUnreadable` models a directory whose
  `fs::read_dir` fails, and `dir` carries the listing otherwise;
* `errEntry` models an `Err` item produced while iterating `read_dir`
  (`src/main.rs:122`). -/

/-- Result of `fs::metadata`: byte length and optional modification
time (seconds; `0` is the Unix epoch). -/
structure Metadata where
  len : Nat
  modified : Option Nat
deriving DecidableEq, Repr

/-- One filesystem entry as observed by the traversal. -/
inductive Entry where
  | errEntry : Entry
  | file (name : String) (utf8 : Bool) (meta : Option Metadata)
      (content : Option (List (Option String))) : Entry
  | dirUnreadable (name : String) (utf8 : Bool) (meta : Option Metadata) : Entry
  | dir (name : String) (utf8 : Bool) (meta : Option Metadata)
      (listing : List Entry) : Entry
deriving Repr

/-- The parsed command-line arguments (`struct Args`,
`src/main.rs:16-61`). -/
structure Args where
  pattern : String
  dir : String
  date : Bool
  size : Bool
  human_readable : Bool
  sort : Option String
  content_search : Bool
deriving Repr

/-- `struct FileInfo` (`src/main.rs:62-68`): one discovered record. -/
structure FileInfo where
  path : String
  size : Nat
  modified : Nat
  matches_content : Bool
deriving DecidableEq, Repr

/-- The abrupt outcome of an `Option::unwrap`/`Result::unwrap` on a
failure value: a Rust panic, which aborts the whole run. -/
inductive RPanic where
  | unwrapFail : RPanic
deriving DecidableEq, Repr

/-- `search_file_content` (`src/main.rs:155-167`): `false` when the
file cannot be opened; otherwise `true` exactly when some `Ok` line
matches the compiled pattern (an `Err` line is skipped). -/
def search_file_content (content : Option (List (Option String)))
    (re : List RItem) : Bool :=
  match content with
  | none => false
  | some lines =>
    lines.any fun l =>
      match l with
      | some s => rustIsMatch re s
      | none => false

mutual

/-- The body of the `for entry in entries` loop of `find_files`
(`src/main.rs:121-148`) for one entry.  `dirPath` is the `dir` argument
of the enclosing call (a Rust `&str`, hence always valid UTF-8).  For a
directory entry the recursive call `find_files(path.to_str().unwrap())`
panics when the entry's name is not valid UTF-8. -/
def findEntry (args : Args) (re : List RItem) (dirPath : String) :
    Entry → Except RPanic (List FileInfo)
  | .errEntry => pure []
  | .file name _ meta content =>
    let nm := rustIsMatch re name
    if nm || args.content_search then
      match meta with
      | some md =>
        let mc := if args.content_search then search_file_content content re
                  else false
        if nm || mc then
          pure [⟨dirPath ++ "/" ++ name, md.len, md.modified.getD 0, mc⟩]
        else pure []
      | none => pure []
    else pure []
  | .dirUnreadable name utf8 meta =>
    let nm := rustIsMatch re name
    let own : List FileInfo :=
      if nm then
        match meta with
        | some md => [⟨dirPath ++ "/" ++ name, md.len, md.modified.getD 0, false⟩]
        | none => []
      else []
    if utf8 then pure own else Except.error .unwrapFail
  | .dir name utf8 meta listing =>
    let nm := rustIsMatch re name
    let own : List FileInfo :=
      if nm then
        match meta with
        | some md => [⟨dirPath ++ "/" ++ name, md.len, md.modified.getD 0, false⟩]
        | none => []
      else []
    if utf8 then do
      let sub ← findEntries args re (dirPath ++ "/" ++ name) listing
      pure (own ++ sub)
    else Except.error .unwrapFail

/-- The `for` loop of `find_files` over a directory listing, appending
each entry's contribution (`src/main.rs:121-149`). -/
def findEntries (args : Args) (re : List RItem) (dirPath : String) :
    List Entry → Except RPanic (List FileInfo)
  | [] => pure []
  | e :: es => do
    let r ← findEntry args re dirPath e
    let rs ← findEntries args re dirPath es
    pure (r ++ rs)

end

/-- `find_files` (`src/main.rs:117-153`): `listing` is the result of
`fs::read_dir(dir)`; a failed `read_dir` yields the empty result. -/
def find_files (args : Args) (re : List RItem) (dir : String)
    (listing : Option (List Entry)) : Except RPanic (List FileInfo) :=
  match listing with
  | none => pure []
  | some es => findEntries args re dir es

/-- Model of `Path::file_name` for the paths this program builds:
the final `/`-separated component, with `.` components ignored and a
trailing `..` yielding `none`. -/
def file_name (p : String) : Option String :=
  let comps := (p.splitOn "/").filter fun c => c ≠ "" && c ≠ "."
  match comps.getLast? with
  | some c => if c = ".." then none else some c
  | none => none

/-- The comparator `a.path.file_name().cmp(&b.path.file_name())`
(`src/main.rs:79`): `Option` ordering with `none` first, then
lexicographic string order. -/
def cmpOptStr : Option String → Option String → Ordering
  | none, none => .eq
  | none, some _ => .lt
  | some _, none => .gt
  | some a, some b => if a < b then .lt else if a = b then .eq else .gt

/-- The `name` comparator accepts `a` before `b` when the comparison is
not `Greater`; this is the "less or equal" test a stable sort by that
comparator establishes. -/
def nameLe (a b : FileInfo) : Bool :=
  decide (cmpOptStr (file_name a.path) (file_name b.path) ≠ Ordering.gt)

/-- The `size` comparator `b.size.cmp(&a.size)` (`src/main.rs:80`),
as the corresponding "not Greater" test: descending by size. -/
def sizeLe (a b : FileInfo) : Bool :=
  decide (b.size ≤ a.size)

/-- The `date` comparator `b.modified.cmp(&a.modified)`
(`src/main.rs:81`): descending by modification time. -/
def dateLe (a b : FileInfo) : Bool :=
  decide (b.modified ≤ a.modified)

/-- The sorting step of `main` (`src/main.rs:76-84`).  Rust's
`slice::sort_by` is a stable sort; it is modelled by `List.mergeSort`,
which is stable.  An absent key, or any key outside the closed set,
leaves the discovery order unchanged. -/
def sort_results (sortKey : Option String) (rs : List FileInfo) :
    List FileInfo :=
  match sortKey with
  | none => rs
  | some k =>
    if k = "name" then rs.mergeSort nameLe
    else if k = "size" then rs.mergeSort sizeLe
    else if k = "date" then rs.mergeSort dateLe
    else rs

/-- `main` up to the point where results are ready for printing
(`src/main.rs:70-84`): compile the translated pattern — where
`Regex::new(...).unwrap()` panics on a compile error — then traverse
and sort.  `rootListing` is what `fs::read_dir(args.dir)` returns. -/
def run_main (args : Args) (rootListing : Option (List Entry)) :
    Except RPanic (List FileInfo) :=
  match compileRegex (glob_to_regex args.pattern) with
  | none => Except.error .unwrapFail
  | some re => do
    let results ← find_files args re args.dir rootListing
    pure (sort_results args.sort results)

/-- `UNITS` (`src/main.rs:211`). -/
def UNITS : List String := ["B", "KB", "MB", "GB", "TB", "PB"]

/-- Fuelled base-1024 floor logarithm; fuel 7 covers every `u64`
(`u64::MAX < 1024 ^ 7`). -/
def log1024F : Nat → Nat → Nat
  | 0, _ => 0
  | fuel + 1, n => if n < 1024 then 0 else log1024F fuel (n / 1024) + 1

/-- `(size as f64).log(1024.0).floor() as usize` (`src/main.rs:215`),
modelled as the exact base-1024 floor logarithm. -/
def log1024 (n : Nat) : Nat := log1024F 7 n

/-- `format!("{:.2}", num / p)` (`src/main.rs:218`) for nonnegative
values, modelled exactly: the quotient rounded to the nearest
hundredth, rendered with two decimal places. -/
def format2 (num p : Nat) : String :=
  let m := (200 * num + p) / (2 * p)
  toString (m / 100) ++ "." ++ (if m % 100 < 10 then "0" else "") ++
    toString (m % 100)

/-- `human_readable_size` (`src/main.rs:210-219`).  The `f64`
logarithm, power and division are modelled by exact arithmetic; the
out-of-bounds indexing `UNITS[i]` for `i ≥ 6` (reachable for
`size ≥ 1024^6`) is modelled as `none` (a Rust panic). -/
def human_readable_size (size : Nat) : Option String :=
  if size = 0 then some "0 B"
  else
    let i := log1024 size
    match UNITS.get? i with
    | some u => some (format2 size (1024 ^ i) ++ " " ++ u)
    | none => none

example : human_readable_size 0 = some "0 B" := by decide
example : human_readable_size 1024 = some "1.00 KB" := by decide
example : human_readable_size 1536 = some "1.50 KB" := by decide
example : human_readable_size 1048576 = some "1.00 MB" := by decide
example : human_readable_size 999 = some "999.00 B" := by decide

deriving instance DecidableEq for Except

/-! ## Observation helpers on entries and trees -/

/-- The file name of an entry (its `to_string_lossy` form). -/
def entryName : Entry → String
  | .errEntry => ""
  | .file n _ _ _ => n
  | .dirUnreadable n _ _ => n
  | .dir n _ _ _ => n

/-- Whether the entry is a regular file (`path.is_file()`). -/
def entryIsFile : Entry → Bool
  | .file _ _ _ _ => true
  | _ => false

/-- The entry's `fs::metadata` result. -/
def entryMeta : Entry → Option Metadata
  | .errEntry => none
  | .file _ _ m _ => m
  | .dirUnreadable _ _ m => m
  | .dir _ _ m _ => m

/-- The entry's readable content (files only). -/
def entryContent : Entry → Option (List (Option String))
  | .file _ _ _ c => c
  | _ => none

mutual

/-- Every entry of the tree below a directory path, paired with its
full path, in the depth-first order the traversal visits them (an
entry before the contents of its subtree). -/
def collectEntry (p : String) : Entry → List (String × Entry)
  | .errEntry => []
  | .file n u m c => [(p ++ "/" ++ n, .file n u m c)]
  | .dirUnreadable n u m => [(p ++ "/" ++ n, .dirUnreadable n u m)]
  | .dir n u m lst =>
    (p ++ "/" ++ n, .dir n u m lst) :: collectList (p ++ "/" ++ n) lst

/-- `collectEntry` over a listing, in order. -/
def collectList (p : String) : List Entry → List (String × Entry)
  | [] => []
  | e :: es => collectEntry p e ++ collectList p es

end

mutual

/-- A tree is clean when traversal meets no error condition in it:
no failed `read_dir` item, every directory readable, every name valid
UTF-8, and every `fs::metadata` call successful (the modification time
may still be missing). -/
def cleanEntry : Entry → Bool
  | .errEntry => false
  | .file _ u m _ => u && m.isSome
  | .dirUnreadable _ _ _ => false
  | .dir _ u m lst => u && m.isSome && cleanList lst

/-- `cleanEntry` over a listing. -/
def cleanList : List Entry → Bool
  | [] => true
  | e :: es => cleanEntry e && cleanList es

end

mutual

/-- Whether the tree contains a directory entry, reachable through
readable listings, whose name is not valid UTF-8 — the condition under
which the recursion's `path.to_str().unwrap()` is reached on a `None`. -/
def hasBadDir : Entry → Bool
  | .errEntry => false
  | .file _ _ _ _ => false
  | .dirUnreadable _ u _ => !u
  | .dir _ u _ lst => !u || hasBadDirs lst

/-- `hasBadDir` over a listing. -/
def hasBadDirs : List Entry → Bool
  | [] => false
  | e :: es => hasBadDir e || hasBadDirs es

end

/-- Modelled from the spec §4.3: an entry is included in the results
if its name matches the pattern, or content search is enabled, the
entry is a regular file, and its content matches. -/
def shouldInclude (args : Args) (re : List RItem) (e : Entry) : Bool :=
  rustIsMatch re (entryName e) ||
    (args.content_search && entryIsFile e && search_file_content (entryContent e) re)

/-- The record the traversal builds for an included entry: its path,
the metadata's length, the modification time with the epoch fallback,
and the content-match flag. -/
def expectedRecord (args : Args) (re : List RItem) (pe : String × Entry) :
    FileInfo where
  path := pe.1
  size :=
    match entryMeta pe.2 with
    | some md => md.len
    | none => 0
  modified :=
    match entryMeta pe.2 with
    | some md => md.modified.getD 0
    | none => 0
  matches_content :=
    args.content_search && entryIsFile pe.2 &&
      search_file_content (entryContent pe.2) re

/-! ## Claim C8 — human-readable sizes -/

/-- Claim C8: the human-readable size formatter uses base-1024 units
`B, KB, MB, GB, TB, PB` rounded to two decimal places, with 0 bytes
rendered as the literal `"0 B"`; in particular
`human_readable_size 0 = "0 B"`, `human_readable_size 1024 = "1.00 KB"`,
`human_readable_size 1536 = "1.50 KB"`, and
`human_readable_size 1048576 = "1.00 MB"`. -/
theorem c8_human_readable_size :
    human_readable_size 0 = some "0 B" ∧
    human_readable_size 1024 = some "1.00 KB" ∧
    human_readable_size 1536 = some "1.50 KB" ∧
    human_readable_size 1048576 = some "1.00 MB" ∧
    UNITS = ["B", "KB", "MB", "GB", "TB", "PB"] := by
  decide

/-! ## Claim C1 — invalid pattern handling -/

/-- Claim C1 (divergence witness): the translation of the pattern `[`
fails to compile (an unclosed character class), and `main` then
**panics** through `Regex::new(&regex_pattern).unwrap()`
(`src/main.rs:73`) rather than reporting an `InvalidPatternError`.
The panic does occur before any traversal or output: the outcome is
the same for every filesystem and every other argument value. -/
theorem c1_invalid_pattern_panics (d : String) (dt sz hr : Bool)
    (so : Option String) (cs : Bool) (root : Option (List Entry)) :
    compileRegex (glob_to_regex "[") = none ∧
    run_main ⟨"[", d, dt, sz, hr, so, cs⟩ root = Except.error .unwrapFail := by
  refine ⟨by decide, ?_⟩
  have h : compileRegex (glob_to_regex "[") = none := by decide
  simp only [run_main, h]

/-! ## Claim C3 — the character-by-character glob translation -/

/-- Modelled from the spec, claim C3 exactly as stated: the same
character-by-character translation but with `[` and `]` each
**toggling** the bracket state (the claim's wording), instead of `[`
setting it and `]` clearing it. -/
def globCharToggle (in_brackets : Bool) (c : Char) : List Char × Bool :=
  if c = '*' then
    (if in_brackets then ['*'] else ['.', '*'], in_brackets)
  else if c = '?' then
    (if in_brackets then ['?'] else ['.'], in_brackets)
  else if c = '[' then
    (['['], !in_brackets)
  else if c = ']' then
    ([']'], !in_brackets)
  else if c = '.' ∨ c = '+' ∨ c = '(' ∨ c = ')' ∨ c = '|' ∨ c = '^' ∨
          c = '$' ∨ c = '@' ∨ c = '%' then
    (if in_brackets then [c] else ['\\', c], in_brackets)
  else
    ([c], in_brackets)

/-- The scan loop of the claim-as-stated translation. -/
def globBodyToggle : List Char → Bool → List Char
  | [], _ => []
  | c :: cs, b =>
    let (out, b') := globCharToggle b c
    out ++ globBodyToggle cs b'

/-- The claim-as-stated translation with toggling bracket state. -/
def glob_to_regex_toggle (pattern : String) : String :=
  ⟨'^' :: (globBodyToggle pattern.data false ++ ['$'])⟩

/-- Claim C3 counterexample: on the pattern `[[*` the real translation
differs from the claim's toggling description.  The source sets the
bracket state on every `[`, so after `[[` the scan is still inside
brackets and `*` stays literal; under toggling the second `[` would
leave the bracket state and `*` would become `.*`. -/
theorem c3_counterexample :
    glob_to_regex "[[*" = "^[[*$" ∧
    glob_to_regex_toggle "[[*" = "^[[.*$" ∧
    glob_to_regex "[[*" ≠ glob_to_regex_toggle "[[*" := by
  decide

/-- Modelled from the spec, claim C3 as amended: scan the input
character by character; `*` becomes `.*` outside brackets and stays
literal inside; `?` becomes `.` outside brackets and stays literal
inside; `[` passes through and **sets** the bracket state; `]` passes
through and **clears** it; the metacharacters `. + ( ) | ^ $ @ %` are
escaped outside brackets and left unescaped inside; every other
character passes through unchanged. -/
def globSpecScan : Bool → List Char → List Char
  | _, [] => []
  | b, c :: cs =>
    if c = '*' then
      (if b then ['*'] else ['.', '*']) ++ globSpecScan b cs
    else if c = '?' then
      (if b then ['?'] else ['.']) ++ globSpecScan b cs
    else if c = '[' then
      '[' :: globSpecScan true cs
    else if c = ']' then
      ']' :: globSpecScan false cs
    else if c = '.' ∨ c = '+' ∨ c = '(' ∨ c = ')' ∨ c = '|' ∨ c = '^' ∨
            c = '$' ∨ c = '@' ∨ c = '%' then
      (if b then [c] else ['\\', c]) ++ globSpecScan b cs
    else
      c :: globSpecScan b cs

/-- The amended-claim translation as a whole: the scan's output
anchored on both sides. -/
def glob_to_regex_described (pattern : String) : String :=
  ⟨'^' :: (globSpecScan false pattern.data ++ ['$'])⟩

theorem globBody_eq_globSpecScan (cs : List Char) :
    ∀ b, globBody cs b = globSpecScan b cs := by
  induction cs with
  | nil => intro b; rfl
  | cons c cs ih =>
    intro b
    by_cases h1 : c = '*'
    · subst h1; simp [globBody, globChar, globSpecScan, ih]
    · by_cases h2 : c = '?'
      · subst h2; simp [globBody, globChar, globSpecScan, ih]
      · by_cases h3 : c = '['
        · subst h3; simp [globBody, globChar, globSpecScan, ih]
        · by_cases h4 : c = ']'
          · subst h4; simp [globBody, globChar, globSpecScan, ih]
          · by_cases h5 : c = '.' ∨ c = '+' ∨ c = '(' ∨ c = ')' ∨ c = '|' ∨
                c = '^' ∨ c = '$' ∨ c = '@' ∨ c = '%'
            · simp [globBody, globChar, globSpecScan, h1, h2, h3, h4, h5, ih]
            · simp [globBody, globChar, globSpecScan, h1, h2, h3, h4, h5, ih]

/-- Claim C3 as amended: the glob-to-regex translation is exactly the
claim's character-by-character scan, with `[` **setting** and `]`
**clearing** the bracket state (rather than each toggling it). -/
theorem c3_translation_described (p : String) :
    glob_to_regex p = glob_to_regex_described p := by
  unfold glob_to_regex glob_to_regex_described
  rw [globBody_eq_globSpecScan]

/-! ## Matching lemmas for fully-literal compiled patterns -/

/-- The sequence of items for a literal character string. -/
def onceLits (cs : List Char) : List RItem :=
  cs.map fun c => RItem.once (RAtom.lit c)

theorem matchEnds_startA (rest : List RItem) (s : List Char) (i : Nat) :
    matchEnds (RItem.once .startA :: rest) s i =
      if i = 0 then matchEnds rest s 0 else [] := by
  by_cases h : i = 0 <;> simp [matchEnds, itemEnds, atomEnds, h]

theorem matchEnds_endA (s : List Char) (i : Nat) :
    matchEnds [RItem.once .endA] s i = if i = s.length then [i] else [] := by
  by_cases h : i = s.length <;> simp [matchEnds, itemEnds, atomEnds, h]

theorem onceLits_cons (c : Char) (cs : List Char) :
    onceLits (c :: cs) = RItem.once (RAtom.lit c) :: onceLits cs := rfl

theorem matchEnds_onceLits (cs : List Char) (rest : List RItem) (s : List Char) :
    ∀ pos, matchEnds (onceLits cs ++ rest) s pos =
      if cs.isPrefixOf (s.drop pos) then matchEnds rest s (pos + cs.length)
      else [] := by
  induction cs with
  | nil => intro pos; simp [onceLits, List.isPrefixOf]
  | cons c cs ih =>
    intro pos
    rw [onceLits_cons, List.cons_append]
    have hstep : matchEnds (RItem.once (RAtom.lit c) :: (onceLits cs ++ rest)) s pos =
        (atomEnds (RAtom.lit c) s pos).flatMap
          fun p => matchEnds (onceLits cs ++ rest) s p := by
      simp [matchEnds, itemEnds]
    rw [hstep]
    cases h : s[pos]? with
    | none =>
      have hlen : s.length ≤ pos := by
        by_contra hlt
        rw [List.getElem?_eq_some.mpr ⟨by omega, rfl⟩] at h
        exact Option.noConfusion h
      rw [List.drop_eq_nil_of_le hlen]
      simp [atomEnds, h, List.isPrefixOf]
    | some x =>
      have hlt : pos < s.length := by
        rcases List.getElem?_eq_some.mp h with ⟨hl, _⟩
        exact hl
      have hx : s[pos] = x := (List.getElem?_eq_some.mp h).2
      have hdrop : s.drop pos = x :: s.drop (pos + 1) := by
        rw [List.drop_eq_getElem_cons hlt, hx]
      rw [hdrop]
      by_cases hxc : x = c
      · subst hxc
        have harith : pos + (cs.length + 1) = pos + 1 + cs.length := by omega
        simp only [atomEnds, h, if_pos rfl, List.flatMap_cons, List.flatMap_nil,
          List.append_nil, List.isPrefixOf, beq_self_eq_true, Bool.true_and,
          List.length_cons, harith, ih (pos + 1)]
        simp [ih (pos + 1)]
      · have hbeq : (c == x) = false := by
          simp only [beq_eq_false_iff_ne, ne_eq]
          exact fun hc => hxc hc.symm
        simp [atomEnds, h, hxc, List.isPrefixOf, hbeq]

/-- A compiled pattern of shape `^cs$` with `cs` all literal matches a
haystack (under the crate's substring-search `is_match`) exactly when
the haystack is the string `cs` itself. -/
theorem rustIsMatch_litPattern (cs : List Char) (s : String) :
    rustIsMatch (RItem.once .startA :: (onceLits cs ++ [RItem.once .endA])) s
        = true ↔ s.data = cs := by
  unfold rustIsMatch
  rw [List.any_eq_true]
  constructor
  · rintro ⟨i, _, hne⟩
    rw [matchEnds_startA] at hne
    by_cases h0 : i = 0
    · rw [if_pos h0, matchEnds_onceLits] at hne
      by_cases hp : cs.isPrefixOf (s.data.drop 0)
      · rw [if_pos hp, matchEnds_endA] at hne
        by_cases hl : 0 + cs.length = s.data.length
        · have hpre : cs <+: s.data := by
            have := List.isPrefixOf_iff_prefix.mp hp
            simpa using this
          exact (hpre.eq_of_length (by omega)).symm
        · rw [if_neg hl] at hne; simp at hne
      · rw [if_neg hp] at hne; simp at hne
    · rw [if_neg h0] at hne; simp at hne
  · intro h
    refine ⟨0, by simp, ?_⟩
    rw [matchEnds_startA, if_pos rfl, matchEnds_onceLits]
    have hp : cs.isPrefixOf (s.data.drop 0) := by
      rw [List.drop_zero, h]
      exact List.isPrefixOf_iff_prefix.mpr List.prefix_rfl
    rw [if_pos hp, matchEnds_endA, if_pos (by simp [h])]
    simp

/-! ## Claim C2 — anchoring of the compiled pattern -/

/-- Claim C2 counterexample: for the pattern `a\` (a single trailing
backslash) the translation emits `^a\$`, in which the backslash escapes
the appended `$` into a literal dollar sign.  The compiled expression
still compiles, and `is_match` succeeds on the haystack `a$x` even
though the whole haystack is not matched — a partial (proper-prefix)
match succeeds, so the compiled expression is not anchored at the end
for every pattern. -/
theorem c2_counterexample :
    glob_to_regex "a\\" = "^a\\$" ∧
    compileRegex (glob_to_regex "a\\") =
      some [RItem.once .startA, RItem.once (.lit 'a'),
            RItem.once (.lit '$')] ∧
    rustIsMatch [RItem.once .startA, RItem.once (.lit 'a'),
        RItem.once (.lit '$')] "a$x" = true ∧
    wholeMatch [RItem.once .startA, RItem.once (.lit 'a'),
        RItem.once (.lit '$')] "a$x" = false := by
  decide

/-- Claim C2 as amended: the translated expression always begins with
`^` and ends with `$` syntactically; the compiled form of `abc` matches
`abc` but not the partial occurrence in `xabcx`; and the empty pattern
compiles to an expression matching only the empty string.  (The
universal "a partial match never succeeds" fails for patterns ending in
a backslash, which escape the closing `$` — see the counterexample.) -/
theorem c2_anchoring_described :
    (∀ p : String, (glob_to_regex p).data.head? = some '^' ∧
      (glob_to_regex p).data.getLast? = some '$') ∧
    (compileRegex (glob_to_regex "abc") =
      some [RItem.once .startA, RItem.once (.lit 'a'), RItem.once (.lit 'b'),
            RItem.once (.lit 'c'), RItem.once .endA] ∧
     rustIsMatch [RItem.once .startA, RItem.once (.lit 'a'),
        RItem.once (.lit 'b'), RItem.once (.lit 'c'), RItem.once .endA]
        "xabcx" = false ∧
     rustIsMatch [RItem.once .startA, RItem.once (.lit 'a'),
        RItem.once (.lit 'b'), RItem.once (.lit 'c'), RItem.once .endA]
        "abc" = true) ∧
    (compileRegex (glob_to_regex "") =
      some [RItem.once .startA, RItem.once .endA] ∧
     ∀ s : String,
       rustIsMatch [RItem.once .startA, RItem.once .endA] s = true ↔
         s = "") := by
  refine ⟨?_, by decide, by decide, ?_⟩
  · intro p
    refine ⟨rfl, ?_⟩
    show ('^' :: (globBody p.data false ++ ['$'])).getLast? = some '$'
    have hsplit : '^' :: (globBody p.data false ++ ['$']) =
        ('^' :: globBody p.data false) ++ ['$'] := by simp
    rw [hsplit, List.getLast?_concat]
  · intro s
    have hlit := rustIsMatch_litPattern [] s
    simp only [onceLits, List.map_nil, List.nil_append] at hlit
    rw [hlit, String.ext_iff]

/-! ## Claim C5 — the content matcher -/

/-- Claim C5: the content matcher returns `false` when the file cannot
be opened; otherwise it returns `true` exactly when some successfully
read line matches the reused anchored pattern — for the compiled
pattern of `hello`, exactly when some `Ok` line is the whole string
`hello`.  A failed line read counts as no match on that line, and a
line that merely contains the pattern (such as `hello world`) does not
match. -/
theorem c5_content_matcher (re : List RItem)
    (h : compileRegex (glob_to_regex "hello") = some re) :
    search_file_content none re = false ∧
    (∀ lines : List (Option String),
      search_file_content (some lines) re =
        lines.any fun l => decide (l = some "hello")) ∧
    search_file_content (some [some "foo", some "hello world"]) re = false := by
  have hc : compileRegex (glob_to_regex "hello") =
      some (RItem.once .startA :: (onceLits "hello".data ++ [RItem.once .endA])) := by
    decide
  rw [h, Option.some.injEq] at hc
  subst hc
  have hline : ∀ l : Option String,
      (match l with
       | some s => rustIsMatch
           (RItem.once .startA :: (onceLits "hello".data ++ [RItem.once .endA])) s
       | none => false) = decide (l = some "hello") := by
    intro l
    cases l with
    | none => simp
    | some s =>
      show rustIsMatch
          (RItem.once .startA :: (onceLits "hello".data ++ [RItem.once .endA])) s =
        decide ((some s : Option String) = some "hello")
      have hlit := rustIsMatch_litPattern "hello".data s
      by_cases hs : s = "hello"
      · subst hs; simp_all
      · have hne : s.data ≠ "hello".data := fun hd => hs (String.ext_iff.mpr hd)
        have hdec : decide ((some s : Option String) = some "hello") = false := by
          simp [hs]
        rw [hdec]
        cases hb : rustIsMatch
            (RItem.once .startA :: (onceLits "hello".data ++ [RItem.once .endA])) s
        · rfl
        · exact absurd (hlit.mp hb) hne
  have hAny : ∀ lines : List (Option String),
      search_file_content (some lines)
          (RItem.once .startA :: (onceLits "hello".data ++ [RItem.once .endA])) =
        lines.any fun l => decide (l = some "hello") := by
    intro lines
    unfold search_file_content
    induction lines with
    | nil => rfl
    | cons l ls ih => simp only [List.any_cons, ← ih, hline l]
  exact ⟨rfl, hAny, by rw [hAny]; decide⟩

/-- Claim C5 witness: the theorem applied to the concrete compiled
form of `hello`, on the spec's example file content. -/
theorem c5_content_matcher_witness :
    search_file_content (some [some "foo", some "hello world"])
        (RItem.once .startA :: (onceLits "hello".data ++ [RItem.once .endA])) =
      false :=
  (c5_content_matcher _ (by decide)).2.2

/-! ## Claim C10 — non-UTF-8 directory paths panic the run -/

mutual

theorem badDir_entry (args : Args) (re : List RItem) (p : String) :
    ∀ e : Entry,
      (hasBadDir e = true → findEntry args re p e = .error .unwrapFail) ∧
      (hasBadDir e = false → ∃ l, findEntry args re p e = .ok l)
  | .errEntry => by
    refine ⟨fun h => ?_, fun _ => ⟨[], rfl⟩⟩
    simp [hasBadDir] at h
  | .file n u m c => by
    refine ⟨fun h => ?_, fun _ => ?_⟩
    · simp [hasBadDir] at h
    · simp only [findEntry]
      cases m with
      | none =>
        by_cases h1 : (rustIsMatch re n || args.content_search) = true <;>
          simp [h1] <;> exact ⟨[], rfl⟩
      | some md =>
        by_cases h1 : rustIsMatch re n = true <;>
          by_cases h2 : args.content_search = true <;>
          by_cases h3 : search_file_content c re = true <;>
          simp [h1, h2, h3] <;> exact ⟨_, rfl⟩
  | .dirUnreadable n u m => by
    refine ⟨fun h => ?_, fun h => ?_⟩
    · have hu : u = false := by simpa [hasBadDir] using h
      subst hu
      rfl
    · have hu : u = true := by simpa [hasBadDir] using h
      subst hu
      exact ⟨_, rfl⟩
  | .dir n u m lst => by
    have hrec := badDir_list args re (p ++ "/" ++ n) lst
    refine ⟨fun h => ?_, fun h => ?_⟩
    · cases hu : u with
      | false =>
        subst hu
        rfl
      | true =>
        subst hu
        have hbad : hasBadDirs lst = true := by
          simpa [hasBadDir] using h
        have herr := hrec.1 hbad
        simp only [findEntry, herr]
        rfl
    · have hu : u = true := by
        cases hu : u with
        | false => simp [hasBadDir, hu] at h
        | true => rfl
      subst hu
      have hgood : hasBadDirs lst = false := by
        simpa [hasBadDir] using h
      obtain ⟨l, hl⟩ := hrec.2 hgood
      cases m with
      | none =>
        refine ⟨(if rustIsMatch re n = true then ([] : List FileInfo)
            else []) ++ l, ?_⟩
        simp only [findEntry, hl]
        rfl
      | some md =>
        refine ⟨(if rustIsMatch re n = true then
            [⟨p ++ "/" ++ n, md.len, md.modified.getD 0, false⟩]
          else ([] : List FileInfo)) ++ l, ?_⟩
        simp only [findEntry, hl]
        rfl

theorem badDir_list (args : Args) (re : List RItem) (p : String) :
    ∀ es : List Entry,
      (hasBadDirs es = true → findEntries args re p es = .error .unwrapFail) ∧
      (hasBadDirs es = false → ∃ rs, findEntries args re p es = .ok rs)
  | [] => by
    refine ⟨fun h => ?_, fun _ => ⟨[], rfl⟩⟩
    simp [hasBadDirs] at h
  | e :: es => by
    have h1 := badDir_entry args re p e
    have h2 := badDir_list args re p es
    refine ⟨fun h => ?_, fun h => ?_⟩
    · cases hbe : hasBadDir e with
      | true =>
        have herr := h1.1 hbe
        simp only [findEntries, herr]
        rfl
      | false =>
        obtain ⟨l, hok⟩ := h1.2 hbe
        have hbad : hasBadDirs es = true := by
          simpa [hasBadDirs, hbe] using h
        have herr := h2.1 hbad
        simp only [findEntries, hok, herr]
        rfl
    · have hbe : hasBadDir e = false := by
        cases hbe : hasBadDir e with
        | true => simp [hasBadDirs, hbe] at h
        | false => rfl
      have hbes : hasBadDirs es = false := by
        simpa [hasBadDirs, hbe] using h
      obtain ⟨l, hok⟩ := h1.2 hbe
      obtain ⟨rs, hoks⟩ := h2.2 hbes
      refine ⟨l ++ rs, ?_⟩
      simp only [findEntries, hok, hoks]
      rfl

end

/-- Claim C10: if the traversal reaches a directory entry whose path is
not valid UTF-8 (reachable through readable listings), the recursion's
`path.to_str().unwrap()` (`src/main.rs:146`) panics and the whole run
crashes — no results are produced and no sibling is continued with;
and conversely, when every reachable directory name is valid UTF-8,
this panic is unreachable and the traversal returns a result list. -/
theorem c10_non_utf8_dir_panics :
    (∀ (args : Args) (re : List RItem) (dir : String) (es : List Entry),
      hasBadDirs es = true →
      find_files args re dir (some es) = .error .unwrapFail) ∧
    (∀ (args : Args) (re : List RItem) (dir : String)
        (listing : Option (List Entry)),
      (∀ es ∈ listing, hasBadDirs es = false) →
      ∃ rs, find_files args re dir listing = .ok rs) := by
  constructor
  · intro args re dir es h
    exact (badDir_list args re dir es).1 h
  · intro args re dir listing h
    cases listing with
    | none => exact ⟨[], rfl⟩
    | some es => exact (badDir_list args re dir es).2 (h es rfl)

/-- Claim C10 witness: a listing containing a directory with a
non-UTF-8 name makes `find_files` panic, while the same listing with a
valid name is traversed successfully. -/
theorem c10_non_utf8_dir_panics_witness :
    find_files ⟨"x", ".", false, false, false, none, false⟩
        [RItem.once .startA, RItem.once (.lit 'x'), RItem.once .endA] "."
        (some [.file "x" true (some ⟨1, some 2⟩) none,
               .dir "bad" false (some ⟨0, some 0⟩) []]) =
      .error .unwrapFail ∧
    ∃ rs, find_files ⟨"x", ".", false, false, false, none, false⟩
        [RItem.once .startA, RItem.once (.lit 'x'), RItem.once .endA] "."
        (some [.file "x" true (some ⟨1, some 2⟩) none,
               .dir "good" true (some ⟨0, some 0⟩) []]) = .ok rs := by
  constructor
  · exact c10_non_utf8_dir_panics.1 _ _ _ _ (by decide)
  · exact c10_non_utf8_dir_panics.2 _ _ _ _ (by decide)

/-! ## Claim C9 — the matches_content flag -/

/-- The record list a directory-like entry contributes for itself
(the `results.push` of `src/main.rs:134-141` in the non-file case):
one record with `matches_content := false` when the name matches and
metadata is available, nothing otherwise. -/
def dirOwn (re : List RItem) (p n : String) (m : Option Metadata) :
    List FileInfo :=
  if rustIsMatch re n then
    match m with
    | some md => [⟨p ++ "/" ++ n, md.len, md.modified.getD 0, false⟩]
    | none => []
  else []

theorem mem_dirOwn_flag (re : List RItem) (p n : String)
    (m : Option Metadata) (r : FileInfo) (hr : r ∈ dirOwn re p n m) :
    r.matches_content = false := by
  by_cases h1 : rustIsMatch re n = true
  · cases m with
    | none => simp [dirOwn, h1] at hr
    | some md =>
      simp only [dirOwn, h1, if_true, List.mem_singleton] at hr
      subst hr
      rfl
  · simp [dirOwn, h1] at hr

mutual

theorem noContentFlag_entry (args : Args) (re : List RItem) (p : String) :
    ∀ e : Entry, args.content_search = false →
      ∀ rs, findEntry args re p e = .ok rs →
        ∀ r ∈ rs, r.matches_content = false
  | .errEntry => by
    intro hcs rs heq r hr
    cases heq
    simp at hr
  | .file n u m c => by
    intro hcs rs heq r hr
    cases m with
    | none =>
      simp only [findEntry] at heq
      split at heq <;> (cases heq; simp at hr)
    | some md =>
      simp only [findEntry, hcs] at heq
      by_cases h1 : rustIsMatch re n = true <;> simp [h1] at heq
      · cases heq
        simp only [List.mem_singleton] at hr
        subst hr
        rfl
      · cases heq
        simp at hr
  | .dirUnreadable n u m => by
    intro hcs rs heq r hr
    cases u with
    | false => exact Except.noConfusion heq
    | true =>
      have hred : findEntry args re p (.dirUnreadable n true m) =
          .ok (dirOwn re p n m) := rfl
      rw [hred] at heq
      injection heq with heq
      rw [← heq] at hr
      exact mem_dirOwn_flag re p n m r hr
  | .dir n u m lst => by
    intro hcs rs heq r hr
    cases u with
    | false => exact Except.noConfusion heq
    | true =>
      cases hsub : findEntries args re (p ++ "/" ++ n) lst with
      | error pe =>
        have hred : findEntry args re p (.dir n true m lst) =
            .error pe := by
          simp only [findEntry, hsub]
          rfl
        rw [hred] at heq
        exact Except.noConfusion heq
      | ok sub =>
        have hred : findEntry args re p (.dir n true m lst) =
            .ok (dirOwn re p n m ++ sub) := by
          simp only [findEntry, hsub]
          rfl
        rw [hred] at heq
        injection heq with heq
        rw [← heq] at hr
        rcases List.mem_append.mp hr with hown | hsub2
        · exact mem_dirOwn_flag re p n m r hown
        · exact noContentFlag_list args re (p ++ "/" ++ n) lst hcs sub hsub r hsub2

theorem noContentFlag_list (args : Args) (re : List RItem) (p : String) :
    ∀ es : List Entry, args.content_search = false →
      ∀ rs, findEntries args re p es = .ok rs →
        ∀ r ∈ rs, r.matches_content = false
  | [] => by
    intro hcs rs heq r hr
    cases heq
    simp at hr
  | e :: es => by
    intro hcs rs heq r hr
    cases he : findEntry args re p e with
    | error pe =>
      have hred : findEntries args re p (e :: es) = .error pe := by
        simp only [findEntries, he]
        rfl
      rw [hred] at heq
      exact Except.noConfusion heq
    | ok l =>
      cases hes : findEntries args re p es with
      | error pe =>
        have hred : findEntries args re p (e :: es) = .error pe := by
          simp only [findEntries, he, hes]
          rfl
        rw [hred] at heq
        exact Except.noConfusion heq
      | ok ls =>
        have hred : findEntries args re p (e :: es) = .ok (l ++ ls) := by
          simp only [findEntries, he, hes]
          rfl
        rw [hred] at heq
        injection heq with heq
        rw [← heq] at hr
        rcases List.mem_append.mp hr with h1 | h2
        · exact noContentFlag_entry args re p e hcs l he r h1
        · exact noContentFlag_list args re p es hcs ls hes r h2

end

/-- Claim C9: within one run, a record's `matches_content` field is
`false` whenever content search was not requested; and the record
created for a directory entry has `matches_content = false` even when
content search was requested (it is the head of that entry's
contribution when the directory's name matches and its metadata is
available). -/
theorem c9_matches_content_invariant :
    (∀ (args : Args) (re : List RItem) (p : String) (es : List Entry)
        (rs : List FileInfo),
      args.content_search = false →
      findEntries args re p es = .ok rs →
      ∀ r ∈ rs, r.matches_content = false) ∧
    (∀ (args : Args) (re : List RItem) (p n : String) (md : Metadata)
        (lst : List Entry) (rs : List FileInfo),
      rustIsMatch re n = true →
      findEntry args re p (.dir n true (some md) lst) = .ok rs →
      ∃ rest, rs =
        ⟨p ++ "/" ++ n, md.len, md.modified.getD 0, false⟩ :: rest) := by
  constructor
  · intro args re p es rs hcs heq
    exact noContentFlag_list args re p es hcs rs heq
  · intro args re p n md lst rs hnm heq
    cases hsub : findEntries args re (p ++ "/" ++ n) lst with
    | error pe =>
      have hred : findEntry args re p (.dir n true (some md) lst) =
          .error pe := by
        simp only [findEntry, hsub]
        rfl
      rw [hred] at heq
      exact Except.noConfusion heq
    | ok sub =>
      have hred : findEntry args re p (.dir n true (some md) lst) =
          .ok (⟨p ++ "/" ++ n, md.len, md.modified.getD 0, false⟩ :: sub) := by
        simp only [findEntry, hsub, hnm]
        rfl
      rw [hred] at heq
      injection heq with heq
      exact ⟨sub, heq.symm⟩

/-- Claim C9 witness: the two conjuncts applied at concrete inputs —
a run without content search over a small tree, and a matching
directory entry in a run with content search enabled. -/
theorem c9_matches_content_invariant_witness :
    (∀ r ∈ [(⟨"./x", 1, 2, false⟩ : FileInfo)], r.matches_content = false) ∧
    ∃ rest, [(⟨"./d", 4, 5, false⟩ : FileInfo)] =
      (⟨"./d", 4, 5, false⟩ : FileInfo) :: rest := by
  constructor
  · exact c9_matches_content_invariant.1
      ⟨"x", ".", false, false, false, none, false⟩
      [RItem.once .startA, RItem.once (.lit 'x'), RItem.once .endA] "."
      [.file "x" true (some ⟨1, some 2⟩) none] [⟨"./x", 1, 2, false⟩]
      rfl (by decide)
  · exact c9_matches_content_invariant.2
      ⟨"d", ".", false, false, false, none, true⟩
      [RItem.once .startA, RItem.once (.lit 'd'), RItem.once .endA] "." "d"
      ⟨4, some 5⟩ [] [⟨"./d", 4, 5, false⟩] (by decide) (by decide)

/-! ## Claim C4 — what the traversal returns -/

mutual

theorem findClean_entry (args : Args) (re : List RItem) (p : String) :
    ∀ e : Entry, cleanEntry e = true →
      findEntry args re p e = .ok
        (((collectEntry p e).filter fun pe => shouldInclude args re pe.2).map
          (expectedRecord args re))
  | .errEntry => by
    intro h
    simp [cleanEntry] at h
  | .file n u m c => by
    intro h
    rw [cleanEntry] at h
    simp only [Bool.and_eq_true] at h
    obtain ⟨hu, hm⟩ := h
    cases m with
    | none => simp at hm
    | some md =>
      by_cases h1 : rustIsMatch re n = true <;>
        by_cases h2 : args.content_search = true <;>
        by_cases h3 : search_file_content c re = true <;>
        simp [findEntry, collectEntry, shouldInclude, expectedRecord,
          entryName, entryIsFile, entryContent, entryMeta, h1, h2, h3,
          List.filter_cons] <;>
        rfl
  | .dirUnreadable n u m => by
    intro h
    simp [cleanEntry] at h
  | .dir n u m lst => by
    intro h
    rw [cleanEntry] at h
    simp only [Bool.and_eq_true] at h
    obtain ⟨⟨hu, hm⟩, hlst⟩ := h
    subst hu
    cases m with
    | none => simp at hm
    | some md =>
      have ih := findClean_list args re (p ++ "/" ++ n) lst hlst
      have hred : findEntry args re p (.dir n true (some md) lst) =
          .ok (dirOwn re p n (some md) ++
            (((collectList (p ++ "/" ++ n) lst).filter
                fun pe => shouldInclude args re pe.2).map
              (expectedRecord args re))) := by
        simp only [findEntry, ih]
        rfl
      rw [hred]
      by_cases hnm : rustIsMatch re n = true <;>
        simp [dirOwn, collectEntry, shouldInclude, expectedRecord,
          entryName, entryIsFile, entryContent, entryMeta, hnm,
          List.filter_cons, search_file_content]

theorem findClean_list (args : Args) (re : List RItem) (p : String) :
    ∀ es : List Entry, cleanList es = true →
      findEntries args re p es = .ok
        (((collectList p es).filter fun pe => shouldInclude args re pe.2).map
          (expectedRecord args re))
  | [] => by
    intro h
    rfl
  | e :: es => by
    intro h
    rw [cleanList] at h
    simp only [Bool.and_eq_true] at h
    obtain ⟨he, hes⟩ := h
    have ih1 := findClean_entry args re p e he
    have ih2 := findClean_list args re p es hes
    have hred : findEntries args re p (e :: es) = .ok
        ((((collectEntry p e).filter fun pe => shouldInclude args re pe.2).map
            (expectedRecord args re)) ++
          (((collectList p es).filter fun pe => shouldInclude args re pe.2).map
            (expectedRecord args re))) := by
      simp only [findEntries, ih1, ih2]
      rfl
    rw [hred]
    simp [collectList, List.filter_append]

end

/-- Claim C4: over a tree in which the traversal meets no error
condition, `find_files` returns exactly the records of those entries of
the whole tree (enumerated in depth-first order by `collectList`, which
descends into every subdirectory unconditionally, independent of
whether the subdirectory's own name matches) whose name matches the
compiled pattern OR for which content search is enabled, the entry is a
regular file, and its content matches. -/
theorem c4_find_files_characterization (args : Args) (re : List RItem)
    (dir : String) (es : List Entry) (h : cleanList es = true) :
    find_files args re dir (some es) = .ok
      (((collectList dir es).filter fun pe => shouldInclude args re pe.2).map
        (expectedRecord args re)) :=
  findClean_list args re dir es h

/-- Claim C4 witness: the spec's own test tree — `a/b.txt` matches the
pattern `*.txt`, `a/c.log` does not, no content search — and a
non-matching subdirectory that is still recursed into, yielding a
nested match `a/sub/d.txt`. -/
theorem c4_find_files_characterization_witness :
    find_files ⟨"*.txt", "a", false, false, false, none, false⟩
        [RItem.once .startA, RItem.star .any, RItem.once (.lit '.'),
         RItem.once (.lit 't'), RItem.once (.lit 'x'), RItem.once (.lit 't'),
         RItem.once .endA] "a"
        (some [.file "b.txt" true (some ⟨3, some 5⟩) none,
               .file "c.log" true (some ⟨4, some 6⟩) none,
               .dir "sub" true (some ⟨0, some 0⟩)
                 [.file "d.txt" true (some ⟨7, some 8⟩) none]]) =
      .ok [⟨"a/b.txt", 3, 5, false⟩, ⟨"a/sub/d.txt", 7, 8, false⟩] := by
  have h := c4_find_files_characterization
    ⟨"*.txt", "a", false, false, false, none, false⟩
    [RItem.once .startA, RItem.star .any, RItem.once (.lit '.'),
     RItem.once (.lit 't'), RItem.once (.lit 'x'), RItem.once (.lit 't'),
     RItem.once .endA] "a"
    [.file "b.txt" true (some ⟨3, some 5⟩) none,
     .file "c.log" true (some ⟨4, some 6⟩) none,
     .dir "sub" true (some ⟨0, some 0⟩)
       [.file "d.txt" true (some ⟨7, some 8⟩) none]]
    (by decide)
  rw [h]
  decide

/-! ## Claim C7 — sorting of the result list -/

/-- The "less or equal" order on optional file names that the `name`
comparator induces: `none` sorts first, strings lexicographically. -/
def optLe : Option String → Option String → Prop
  | none, _ => True
  | some _, none => False
  | some x, some y => x ≤ y

theorem cmpOptStr_ne_gt : ∀ o₁ o₂ : Option String,
    (cmpOptStr o₁ o₂ ≠ .gt) ↔ optLe o₁ o₂
  | none, none => by simp [cmpOptStr, optLe]
  | none, some _ => by simp [cmpOptStr, optLe]
  | some _, none => by simp [cmpOptStr, optLe]
  | some a, some b => by
    simp only [cmpOptStr, optLe]
    by_cases hab : a < b
    · simp only [hab, if_true]
      exact iff_of_true (by simp) (le_of_lt hab)
    · by_cases heq : a = b
      · subst heq
        simp only [hab, if_false, if_pos rfl]
        exact iff_of_true (by simp) le_rfl
      · simp only [hab, heq, if_false]
        exact iff_of_false (by simp)
          (fun hle => hab (lt_of_le_of_ne hle heq))

theorem nameLe_iff (a b : FileInfo) :
    nameLe a b = true ↔ optLe (file_name a.path) (file_name b.path) := by
  rw [nameLe, decide_eq_true_eq]
  exact cmpOptStr_ne_gt _ _

theorem optLe_refl : ∀ o : Option String, optLe o o
  | none => trivial
  | some _ => le_rfl

theorem optLe_trans : ∀ o₁ o₂ o₃ : Option String,
    optLe o₁ o₂ → optLe o₂ o₃ → optLe o₁ o₃
  | none, _, _, _, _ => trivial
  | some _, none, _, h, _ => absurd h not_false
  | some _, some _, none, _, h => absurd h not_false
  | some _, some _, some _, h1, h2 => le_trans h1 h2

theorem optLe_total : ∀ o₁ o₂ : Option String, optLe o₁ o₂ ∨ optLe o₂ o₁
  | none, _ => Or.inl trivial
  | some _, none => Or.inr trivial
  | some a, some b => le_total a b

theorem nameLe_trans (a b c : FileInfo) :
    nameLe a b = true → nameLe b c = true → nameLe a c = true := by
  rw [nameLe_iff, nameLe_iff, nameLe_iff]
  exact optLe_trans _ _ _

theorem nameLe_total (a b : FileInfo) : (nameLe a b || nameLe b a) = true := by
  rw [Bool.or_eq_true, nameLe_iff, nameLe_iff]
  exact optLe_total _ _

theorem sizeLe_trans (a b c : FileInfo) :
    sizeLe a b = true → sizeLe b c = true → sizeLe a c = true := by
  simp only [sizeLe, decide_eq_true_eq]
  omega

theorem sizeLe_total (a b : FileInfo) : (sizeLe a b || sizeLe b a) = true := by
  simp only [sizeLe, Bool.or_eq_true, decide_eq_true_eq]
  omega

theorem dateLe_trans (a b c : FileInfo) :
    dateLe a b = true → dateLe b c = true → dateLe a c = true := by
  simp only [dateLe, decide_eq_true_eq]
  omega

theorem dateLe_total (a b : FileInfo) : (dateLe a b || dateLe b a) = true := by
  simp only [dateLe, Bool.or_eq_true, decide_eq_true_eq]
  omega

/-- Claim C7: sorting with key `name` is ascending on the file-name
component only and stable — elements with equal file-name keys keep
their original discovery order; with key `size` it is descending by
byte size; with key `date` it is descending by modification timestamp;
with no sort key the discovery order is preserved unchanged; and every
sort is a permutation of the discovered records. -/
theorem c7_sorting :
    (∀ rs : List FileInfo, sort_results none rs = rs) ∧
    (∀ rs : List FileInfo, (sort_results (some "name") rs).Pairwise
      fun a b => optLe (file_name a.path) (file_name b.path)) ∧
    (∀ (rs : List FileInfo) (k : Option String),
      (sort_results (some "name") rs).filter
          (fun r => decide (file_name r.path = k)) =
        rs.filter fun r => decide (file_name r.path = k)) ∧
    (∀ rs : List FileInfo, (sort_results (some "size") rs).Pairwise
      fun a b => b.size ≤ a.size) ∧
    (∀ rs : List FileInfo, (sort_results (some "date") rs).Pairwise
      fun a b => b.modified ≤ a.modified) ∧
    (∀ (k : Option String) (rs : List FileInfo), (sort_results k rs).Perm rs) := by
  have hname : ∀ rs : List FileInfo,
      sort_results (some "name") rs = rs.mergeSort nameLe := by
    intro rs; simp [sort_results]
  have hsize : ∀ rs : List FileInfo,
      sort_results (some "size") rs = rs.mergeSort sizeLe := by
    intro rs; simp [sort_results]
  have hdate : ∀ rs : List FileInfo,
      sort_results (some "date") rs = rs.mergeSort dateLe := by
    intro rs; simp [sort_results]
  refine ⟨fun rs => rfl, ?_, ?_, ?_, ?_, ?_⟩
  · intro rs
    rw [hname]
    exact (List.sorted_mergeSort nameLe_trans nameLe_total rs).imp
      fun h => (nameLe_iff _ _).mp h
  · intro rs k
    rw [hname]
    have hall : ∀ r ∈ rs.filter (fun r => decide (file_name r.path = k)),
        decide (file_name r.path = k) = true :=
      fun r hr => (List.mem_filter.mp hr).2
    have hpair : (rs.filter fun r => decide (file_name r.path = k)).Pairwise
        fun a b => nameLe a b = true := by
      apply List.pairwise_of_forall_mem_list
      intro a ha b hb
      have hka : file_name a.path = k :=
        of_decide_eq_true (List.mem_filter.mp ha).2
      have hkb : file_name b.path = k :=
        of_decide_eq_true (List.mem_filter.mp hb).2
      rw [nameLe_iff, hka, hkb]
      exact optLe_refl k
    have h1 : List.Sublist (rs.filter fun r => decide (file_name r.path = k))
        (rs.mergeSort nameLe) :=
      List.sublist_mergeSort nameLe_trans nameLe_total hpair
        (List.filter_sublist rs)
    have h2 : List.Sublist (rs.filter fun r => decide (file_name r.path = k))
        ((rs.mergeSort nameLe).filter fun r => decide (file_name r.path = k)) := by
      have h3 := List.Sublist.filter
        (fun r : FileInfo => decide (file_name r.path = k)) h1
      rwa [List.filter_eq_self.mpr hall] at h3
    have hlen : ((rs.mergeSort nameLe).filter
          fun r => decide (file_name r.path = k)).length =
        (rs.filter fun r => decide (file_name r.path = k)).length :=
      ((List.mergeSort_perm rs nameLe).filter _).length_eq
    exact (h2.eq_of_length hlen.symm).symm
  · intro rs
    rw [hsize]
    exact (List.sorted_mergeSort sizeLe_trans sizeLe_total rs).imp
      fun h => by simpa [sizeLe] using h
  · intro rs
    rw [hdate]
    exact (List.sorted_mergeSort dateLe_trans dateLe_total rs).imp
      fun h => by simpa [dateLe] using h
  · intro k rs
    cases k with
    | none => exact List.Perm.refl rs
    | some s =>
      by_cases h1 : s = "name"
      · subst h1; rw [hname]; exact List.mergeSort_perm rs nameLe
      · by_cases h2 : s = "size"
        · subst h2; rw [hsize]; exact List.mergeSort_perm rs sizeLe
        · by_cases h3 : s = "date"
          · subst h3; rw [hdate]; exact List.mergeSort_perm rs dateLe
          · simp [sort_results, h1, h2, h3]

/-! ## Claim C6 — local recovery of traversal-time read errors -/

/-- Claim C6: traversal-time read errors are recovered locally.
An unreadable directory behaves exactly like an empty readable one
(own record if its name matches, nothing from below, no error), both
on its own and amid siblings; a file whose metadata fetch fails is
skipped entirely even when its name matches; a directory whose
metadata fetch fails contributes no record of its own but is still
recursed into; and a missing modification timestamp alone does not
skip the entry — its `modified` field falls back to the epoch value
`0`. -/
theorem c6_error_recovery :
    (∀ (args : Args) (re : List RItem) (p n : String) (m : Option Metadata),
      findEntry args re p (.dirUnreadable n true m) =
        findEntry args re p (.dir n true m [])) ∧
    (∀ (args : Args) (re : List RItem) (p n : String) (m : Option Metadata)
        (es : List Entry),
      findEntries args re p (.dirUnreadable n true m :: es) =
        findEntries args re p (.dir n true m [] :: es)) ∧
    (∀ (args : Args) (re : List RItem) (p n : String)
        (content : Option (List (Option String))),
      findEntry args re p (.file n true none content) = .ok []) ∧
    (∀ (args : Args) (re : List RItem) (p n : String) (lst : List Entry),
      findEntry args re p (.dir n true none lst) =
        findEntries args re (p ++ "/" ++ n) lst) ∧
    (∀ (args : Args) (re : List RItem) (p n : String) (len : Nat)
        (content : Option (List (Option String))),
      rustIsMatch re n = true →
      findEntry args re p (.file n true (some ⟨len, none⟩) content) =
        .ok [⟨p ++ "/" ++ n, len, 0,
          args.content_search && search_file_content content re⟩]) := by
  have ha : ∀ (args : Args) (re : List RItem) (p n : String)
      (m : Option Metadata),
      findEntry args re p (.dirUnreadable n true m) =
        findEntry args re p (.dir n true m []) := by
    intro args re p n m
    simp [findEntry, findEntries]
  refine ⟨ha, ?_, ?_, ?_, ?_⟩
  · intro args re p n m es
    simp only [findEntries, ha args re p n m]
  · intro args re p n content
    simp [findEntry]
    rfl
  · intro args re p n lst
    cases hF : findEntries args re (p ++ "/" ++ n) lst <;>
      simp [findEntry, hF, Except.bind]
  · intro args re p n len content hnm
    by_cases hcs : args.content_search = true <;>
      simp [findEntry, hnm, hcs, Option.getD] <;> rfl

/-- Claim C6 witness: the conjuncts applied at concrete inputs (the
compiled pattern of `x`, matching the file name `x`). -/
theorem c6_error_recovery_witness :
    (findEntry ⟨"x", ".", false, false, false, none, true⟩
        [RItem.once .startA, RItem.once (.lit 'x'), RItem.once .endA] "."
        (.dirUnreadable "x" true (some ⟨7, some 9⟩)) =
      findEntry ⟨"x", ".", false, false, false, none, true⟩
        [RItem.once .startA, RItem.once (.lit 'x'), RItem.once .endA] "."
        (.dir "x" true (some ⟨7, some 9⟩) [])) ∧
    (findEntry ⟨"x", ".", false, false, false, none, true⟩
        [RItem.once .startA, RItem.once (.lit 'x'), RItem.once .endA] "."
        (.file "x" true none (some [some "x"])) = .ok []) ∧
    (findEntry ⟨"x", ".", false, false, false, none, true⟩
        [RItem.once .startA, RItem.once (.lit 'x'), RItem.once .endA] "."
        (.file "x" true (some ⟨7, none⟩) none) =
      .ok [⟨"./x", 7, 0, false⟩]) := by
  refine ⟨c6_error_recovery.1 _ _ _ _ _, c6_error_recovery.2.2.1 _ _ _ _ _, ?_⟩
  have h := c6_error_recovery.2.2.2.2
    ⟨"x", ".", false, false, false, none, true⟩
    [RItem.once .startA, RItem.once (.lit 'x'), RItem.once .endA] "." "x" 7 none
    (by decide)
  rw [h]
  decide
